import Mathlib

/-!
Shallow embedding of `bingtiles/bingtiles.py` (class `TileSystem`).

The Python code is a port of Microsoft's Bing Maps tile-system reference.
Python integers are modelled as `Nat` (all tile/pixel/quadkey quantities in
the code are non-negative); Python floats in the projection functions are
modelled as real numbers; Python's true division `/` between integers is
modelled as division in `ℚ`; the `raise ValueError` in `quadkey_to_tile_xy`
is modelled with `Except String`.
-/

namespace TileSystem

/-- Constant `MIN_LATITUDE` of the Python class. -/
def MIN_LATITUDE : ℝ := -85.05112878

/-- Constant `MAX_LATITUDE` of the Python class. -/
def MAX_LATITUDE : ℝ := 85.05112878

/-- Constant `MIN_LONGITUDE` of the Python class. -/
def MIN_LONGITUDE : ℝ := -180

/-- Constant `MAX_LONGITUDE` of the Python class. -/
def MAX_LONGITUDE : ℝ := 180

/-- Python `clip(self, n, min_value, max_value)`: `min(max(n, min_value), max_value)`. -/
def clip (n min_value max_value : ℝ) : ℝ :=
  min (max n min_value) max_value

/-- Python `map_size(self, level_of_detail)`: `256 << level_of_detail`. -/
def map_size (level_of_detail : ℕ) : ℕ :=
  256 <<< level_of_detail

/-- Python `latlong_to_pixel_xy(self, latitude, longitude, level_of_detail)`:
the float computation modelled over `ℝ`; the Python code returns the two
clipped values unchanged (it performs no cast to `int`). -/
noncomputable def latlong_to_pixel_xy (latitude longitude : ℝ)
    (level_of_detail : ℕ) : ℝ × ℝ :=
  let lat := clip latitude MIN_LATITUDE MAX_LATITUDE
  let lon := clip longitude MIN_LONGITUDE MAX_LONGITUDE
  let x := (lon + 180) / 360
  let sinLatitude := Real.sin (lat * Real.pi / 180)
  let y := 0.5 - Real.log ((1 + sinLatitude) / (1 - sinLatitude)) / (4 * Real.pi)
  let m : ℝ := (map_size level_of_detail : ℝ)
  (clip (x * m + 0.5) 0 (m - 1), clip (y * m + 0.5) 0 (m - 1))

/-- Python `pixel_xy_to_latlong(self, pixel_x, pixel_y, level_of_detail)`:
the float computation modelled over `ℝ`; the pixel inputs are clipped to
`[0, map_size - 1]` and the inverse Mercator formulas are applied. -/
noncomputable def pixel_xy_to_latlong (pixel_x pixel_y : ℝ)
    (level_of_detail : ℕ) : ℝ × ℝ :=
  let m : ℝ := (map_size level_of_detail : ℝ)
  let x := clip pixel_x 0 (m - 1) / m - 0.5
  let y := 0.5 - clip pixel_y 0 (m - 1) / m
  let latitude := 90 - 360 * Real.arctan (Real.exp (-y * 2 * Real.pi)) / Real.pi
  let longitude := 360 * x
  (latitude, longitude)

/-- The vertical projection core of `latlong_to_pixel_xy` (its `sinLatitude`
and `y` lines) as a standalone function of the already clipped latitude. -/
noncomputable def mercator_y (latitude : ℝ) : ℝ :=
  let sinLatitude := Real.sin (latitude * Real.pi / 180)
  0.5 - Real.log ((1 + sinLatitude) / (1 - sinLatitude)) / (4 * Real.pi)

/-- The latitude formula of `pixel_xy_to_latlong` (its `latitude` line) as a
standalone function of the normalized vertical coordinate `y`. -/
noncomputable def inverse_mercator_lat (y : ℝ) : ℝ :=
  90 - 360 * Real.arctan (Real.exp (-y * 2 * Real.pi)) / Real.pi

/-- Python `pixel_xy_to_tile_xy(self, pixel_x, pixel_y)`: the code computes
`pixel_x / 256` with true division (`/` between numbers in Python 3, which
`setup.py` requires), so the result is in general fractional; it is modelled
by division in `ℚ`. -/
def pixel_xy_to_tile_xy (pixel_x pixel_y : ℚ) : ℚ × ℚ :=
  (pixel_x / 256, pixel_y / 256)

/-- Python `tile_xy_to_pixel_xy(self, tile_x, tile_y)`: `(tile_x * 256, tile_y * 256)`. -/
def tile_xy_to_pixel_xy (tile_x tile_y : ℕ) : ℕ × ℕ :=
  (tile_x * 256, tile_y * 256)

/-- One loop iteration's digit in `tile_xy_to_quadkey`: for mask
`1 << (i - 1)` (here `k = i - 1`), `digit` starts at `0`, is incremented by
`1` when `tile_x & mask != 0` and by `2` when `tile_y & mask != 0`. -/
def quad_digit (tile_x tile_y k : ℕ) : ℕ :=
  (if tile_x &&& (1 <<< k) ≠ 0 then 1 else 0) +
    (if tile_y &&& (1 <<< k) ≠ 0 then 2 else 0)

/-- The characters produced by the loop `for i in range(level_of_detail, 0, -1)`
of `tile_xy_to_quadkey`: the iteration with loop variable `i` contributes
`str(digit)` for mask `1 << (i - 1)`, most significant first.  Here the
argument counts the remaining iterations, so the head character corresponds
to the largest mask. -/
def quadkey_chars (tile_x tile_y : ℕ) : ℕ → List Char
  | 0 => []
  | i + 1 => Nat.digitChar (quad_digit tile_x tile_y i) :: quadkey_chars tile_x tile_y i

/-- Python `tile_xy_to_quadkey(self, tile_x, tile_y, level_of_detail)`: the string
accumulated by the loop. -/
def tile_xy_to_quadkey (tile_x tile_y level_of_detail : ℕ) : String :=
  String.mk (quadkey_chars tile_x tile_y level_of_detail)

/-- The loop `for i in range(level_of_detail, 0, -1)` of `quadkey_to_tile_xy`.
The Python iteration with loop variable `i` reads `quadkey[level_of_detail - i]`
with mask `1 << (i - 1)`: the characters are read left to right while `i`
counts down, so we consume the character list in order and pass `i` along
(at the call site `i` starts at the string length, so `i` always equals the
number of characters left). -/
def quadkey_loop : List Char → ℕ → ℕ → ℕ → Except String (ℕ × ℕ)
  | [], _, tile_x, tile_y => Except.ok (tile_x, tile_y)
  | c :: rest, i, tile_x, tile_y =>
    let mask := 1 <<< (i - 1)
    if c = '0' then quadkey_loop rest (i - 1) tile_x tile_y
    else if c = '1' then quadkey_loop rest (i - 1) (tile_x ||| mask) tile_y
    else if c = '2' then quadkey_loop rest (i - 1) tile_x (tile_y ||| mask)
    else if c = '3' then quadkey_loop rest (i - 1) (tile_x ||| mask) (tile_y ||| mask)
    else Except.error "Invalid QuadKey digit sequence."

/-- Python `quadkey_to_tile_xy(self, quadkey)`: `tile_x = tile_y = 0`,
`level_of_detail = len(quadkey)`, then the loop; returns
`(tile_x, tile_y, level_of_detail)` (or raises `ValueError`). -/
def quadkey_to_tile_xy (quadkey : String) : Except String (ℕ × ℕ × ℕ) :=
  match quadkey_loop quadkey.data quadkey.length 0 0 with
  | Except.ok (tile_x, tile_y) => Except.ok (tile_x, tile_y, quadkey.length)
  | Except.error e => Except.error e

example : tile_xy_to_quadkey 3 3 2 = "33" := by decide
example : tile_xy_to_quadkey 0 0 2 = "00" := by decide
example : tile_xy_to_quadkey 1 0 1 = "1" := by decide
example : tile_xy_to_quadkey 0 1 1 = "2" := by decide
example : tile_xy_to_quadkey 5 7 0 = "" := by decide
example : quadkey_to_tile_xy "" = Except.ok (0, 0, 0) := rfl
example : quadkey_to_tile_xy "33" = Except.ok (3, 3, 2) := rfl
example : quadkey_to_tile_xy "213" = Except.ok (3, 5, 3) := rfl
example : quadkey_to_tile_xy "9" = Except.error "Invalid QuadKey digit sequence." := rfl
example : quadkey_to_tile_xy "2g3" = Except.error "Invalid QuadKey digit sequence." := rfl

/-! ### Bit-level helper lemmas -/

lemma and_two_pow_eq (x k : ℕ) :
    x &&& 2 ^ k = if x.testBit k = true then 2 ^ k else 0 := by
  apply Nat.eq_of_testBit_eq
  intro i
  cases hb : x.testBit k with
  | false =>
    simp only [hb, Bool.false_eq_true, if_false, Nat.zero_testBit,
      Nat.testBit_and, Nat.testBit_two_pow]
    rcases eq_or_ne k i with rfl | hne
    · simp [hb]
    · simp [hne]
  | true =>
    simp only [hb, if_true, Nat.testBit_and, Nat.testBit_two_pow]
    rcases eq_or_ne k i with rfl | hne
    · simp [hb]
    · simp [hne]

lemma and_shift_ne_zero_iff (x k : ℕ) :
    x &&& (1 <<< k) ≠ 0 ↔ x / 2 ^ k % 2 = 1 := by
  have hd : x.testBit k = decide (x / 2 ^ k % 2 = 1) := Nat.testBit_to_div_mod
  have hpos : 0 < 2 ^ k := Nat.pow_pos (by omega)
  rw [Nat.one_shiftLeft, and_two_pow_eq, hd]
  by_cases h : x / 2 ^ k % 2 = 1
  · simp [h]
  · simp [h]

lemma mod_two_pow_succ (x n : ℕ) :
    x % 2 ^ (n + 1) = x % 2 ^ n + 2 ^ n * (x / 2 ^ n % 2) := by
  rw [pow_succ]
  exact Nat.mod_mul

lemma lor_two_pow_of_dvd {a n : ℕ} (h : 2 ^ (n + 1) ∣ a) :
    a ||| 2 ^ n = a + 2 ^ n := by
  obtain ⟨b, rfl⟩ := h
  apply Nat.eq_of_testBit_eq
  intro i
  have ha : 2 ^ (n + 1) * b = b <<< (n + 1) := by
    rw [Nat.shiftLeft_eq, Nat.mul_comm]
  have hs : 2 ^ (n + 1) * b + 2 ^ n = (2 * b + 1) <<< n := by
    rw [Nat.shiftLeft_eq, pow_succ]
    ring
  rw [hs, ha, Nat.testBit_or, Nat.testBit_shiftLeft, Nat.testBit_shiftLeft,
    Nat.testBit_two_pow]
  rcases Nat.lt_trichotomy i n with hlt | heq | hgt
  · have h1 : ¬ (n + 1 ≤ i) := by omega
    have h2 : ¬ (n ≤ i) := by omega
    have h3 : n ≠ i := by omega
    simp [h1, h2, h3]
  · subst heq
    have h1 : ¬ (i + 1 ≤ i) := by omega
    have hone : (2 * b + 1) % 2 = 1 := by omega
    simp [h1, Nat.testBit_zero, hone]
  · have h1 : n + 1 ≤ i := hgt
    have h2 : n ≤ i := by omega
    have h3 : n ≠ i := by omega
    have hin : i - n = (i - (n + 1)) + 1 := by omega
    have hdiv : (2 * b + 1) / 2 = b := by omega
    rw [hin, Nat.testBit_add_one, hdiv]
    simp [h1, h2, h3]

lemma quad_digit_eq (tile_x tile_y k : ℕ) :
    quad_digit tile_x tile_y k =
      tile_x / 2 ^ k % 2 + 2 * (tile_y / 2 ^ k % 2) := by
  unfold quad_digit
  have h1 := and_shift_ne_zero_iff tile_x k
  have h2 := and_shift_ne_zero_iff tile_y k
  have m1 : tile_x / 2 ^ k % 2 < 2 := Nat.mod_lt _ (by omega)
  have m2 : tile_y / 2 ^ k % 2 < 2 := Nat.mod_lt _ (by omega)
  by_cases c1 : tile_x &&& (1 <<< k) ≠ 0
  · rw [if_pos c1]
    have e1 := h1.mp c1
    by_cases c2 : tile_y &&& (1 <<< k) ≠ 0
    · rw [if_pos c2]
      have e2 := h2.mp c2
      omega
    · rw [if_neg c2]
      have e2 : tile_y / 2 ^ k % 2 ≠ 1 := fun h => c2 (h2.mpr h)
      omega
  · rw [if_neg c1]
    have e1 : tile_x / 2 ^ k % 2 ≠ 1 := fun h => c1 (h1.mpr h)
    by_cases c2 : tile_y &&& (1 <<< k) ≠ 0
    · rw [if_pos c2]
      have e2 := h2.mp c2
      omega
    · rw [if_neg c2]
      have e2 : tile_y / 2 ^ k % 2 ≠ 1 := fun h => c2 (h2.mpr h)
      omega

lemma quadkey_chars_length (tile_x tile_y n : ℕ) :
    (quadkey_chars tile_x tile_y n).length = n := by
  induction n with
  | zero => rfl
  | succ n ih => simp [quadkey_chars, ih]

lemma quadkey_loop_cons0 (rest : List Char) (i ax ay : ℕ) :
    quadkey_loop ('0' :: rest) i ax ay = quadkey_loop rest (i - 1) ax ay := rfl

lemma quadkey_loop_cons1 (rest : List Char) (i ax ay : ℕ) :
    quadkey_loop ('1' :: rest) i ax ay =
      quadkey_loop rest (i - 1) (ax ||| (1 <<< (i - 1))) ay := rfl

lemma quadkey_loop_cons2 (rest : List Char) (i ax ay : ℕ) :
    quadkey_loop ('2' :: rest) i ax ay =
      quadkey_loop rest (i - 1) ax (ay ||| (1 <<< (i - 1))) := rfl

lemma quadkey_loop_cons3 (rest : List Char) (i ax ay : ℕ) :
    quadkey_loop ('3' :: rest) i ax ay =
      quadkey_loop rest (i - 1) (ax ||| (1 <<< (i - 1))) (ay ||| (1 <<< (i - 1))) := rfl

/-- Decoding the characters produced by the encode loop: running the decode
loop on `quadkey_chars tile_x tile_y n` with counter `n` and accumulators
divisible by `2 ^ n` adds the low `n` bits of `tile_x` and `tile_y` to the
accumulators. -/
lemma quadkey_loop_quadkey_chars (tile_x tile_y : ℕ) :
    ∀ n ax ay, 2 ^ n ∣ ax → 2 ^ n ∣ ay →
      quadkey_loop (quadkey_chars tile_x tile_y n) n ax ay =
        Except.ok (ax + tile_x % 2 ^ n, ay + tile_y % 2 ^ n) := by
  intro n
  induction n with
  | zero =>
    intro ax ay _ _
    simp [quadkey_chars, quadkey_loop, Nat.mod_one]
  | succ n ih =>
    intro ax ay hax hay
    have hx2 : 2 ^ n ∣ ax := dvd_trans (pow_dvd_pow 2 (Nat.le_succ n)) hax
    have hy2 : 2 ^ n ∣ ay := dvd_trans (pow_dvd_pow 2 (Nat.le_succ n)) hay
    have hxm := mod_two_pow_succ tile_x n
    have hym := mod_two_pow_succ tile_y n
    have hd := quad_digit_eq tile_x tile_y n
    have hb1 : tile_x / 2 ^ n % 2 = 0 ∨ tile_x / 2 ^ n % 2 = 1 :=
      Nat.mod_two_eq_zero_or_one _
    have hb2 : tile_y / 2 ^ n % 2 = 0 ∨ tile_y / 2 ^ n % 2 = 1 :=
      Nat.mod_two_eq_zero_or_one _
    simp only [quadkey_chars]
    rcases hb1 with h1 | h1 <;> rcases hb2 with h2 | h2
    · have hd0 : quad_digit tile_x tile_y n = 0 := by rw [hd, h1, h2]
      rw [hd0, show Nat.digitChar 0 = '0' from rfl, quadkey_loop_cons0,
        Nat.add_sub_cancel, ih ax ay hx2 hy2]
      rw [hxm, hym, h1, h2]
      norm_num
    · have hd2 : quad_digit tile_x tile_y n = 2 := by rw [hd, h1, h2]
      rw [hd2, show Nat.digitChar 2 = '2' from rfl, quadkey_loop_cons2,
        Nat.add_sub_cancel, Nat.one_shiftLeft,
        lor_two_pow_of_dvd hay,
        ih ax (ay + 2 ^ n) hx2 (dvd_add hy2 dvd_rfl)]
      rw [hxm, hym, h1, h2]
      simp only [Except.ok.injEq, Prod.mk.injEq]
      omega
    · have hd1 : quad_digit tile_x tile_y n = 1 := by rw [hd, h1, h2]
      rw [hd1, show Nat.digitChar 1 = '1' from rfl, quadkey_loop_cons1,
        Nat.add_sub_cancel, Nat.one_shiftLeft,
        lor_two_pow_of_dvd hax,
        ih (ax + 2 ^ n) ay (dvd_add hx2 dvd_rfl) hy2]
      rw [hxm, hym, h1, h2]
      simp only [Except.ok.injEq, Prod.mk.injEq]
      omega
    · have hd3 : quad_digit tile_x tile_y n = 3 := by rw [hd, h1, h2]
      rw [hd3, show Nat.digitChar 3 = '3' from rfl, quadkey_loop_cons3,
        Nat.add_sub_cancel, Nat.one_shiftLeft,
        lor_two_pow_of_dvd hax, lor_two_pow_of_dvd hay,
        ih (ax + 2 ^ n) (ay + 2 ^ n) (dvd_add hx2 dvd_rfl) (dvd_add hy2 dvd_rfl)]
      rw [hxm, hym, h1, h2]
      simp only [Except.ok.injEq, Prod.mk.injEq]
      omega

/-- C1: for every `lod ≥ 0` and all `tile_x, tile_y < 2 ^ lod`, decoding the
quadkey produced by `tile_xy_to_quadkey tile_x tile_y lod` returns exactly
`(tile_x, tile_y, lod)`: the round-trip is lossless. -/
theorem quadkey_roundtrip (tile_x tile_y level_of_detail : ℕ)
    (hx : tile_x < 2 ^ level_of_detail) (hy : tile_y < 2 ^ level_of_detail) :
    quadkey_to_tile_xy (tile_xy_to_quadkey tile_x tile_y level_of_detail) =
      Except.ok (tile_x, tile_y, level_of_detail) := by
  have hlen : (tile_xy_to_quadkey tile_x tile_y level_of_detail).length
      = level_of_detail := by
    show (quadkey_chars tile_x tile_y level_of_detail).length = _
    exact quadkey_chars_length _ _ _
  have hdata : (tile_xy_to_quadkey tile_x tile_y level_of_detail).data
      = quadkey_chars tile_x tile_y level_of_detail := rfl
  unfold quadkey_to_tile_xy
  rw [hdata, hlen,
    quadkey_loop_quadkey_chars tile_x tile_y level_of_detail 0 0
      (dvd_zero _) (dvd_zero _)]
  simp [Nat.mod_eq_of_lt hx, Nat.mod_eq_of_lt hy]

/-- Witness for C1 at `tile_x = 2`, `tile_y = 1`, `lod = 2`. -/
theorem quadkey_roundtrip_witness :
    quadkey_to_tile_xy (tile_xy_to_quadkey 2 1 2) = Except.ok (2, 1, 2) :=
  quadkey_roundtrip 2 1 2 (by decide) (by decide)

/-- The decode loop hits the `raise ValueError` branch exactly when some
character of the remaining input is not one of `'0' '1' '2' '3'`. -/
lemma quadkey_loop_error_iff (chars : List Char) :
    ∀ i ax ay, quadkey_loop chars i ax ay =
        Except.error "Invalid QuadKey digit sequence." ↔
      ∃ c ∈ chars, c ≠ '0' ∧ c ≠ '1' ∧ c ≠ '2' ∧ c ≠ '3' := by
  induction chars with
  | nil =>
    intro i ax ay
    simp [quadkey_loop]
  | cons c rest ih =>
    intro i ax ay
    by_cases h0 : c = '0'
    · subst h0
      rw [quadkey_loop_cons0, ih]
      simp
    · by_cases h1 : c = '1'
      · subst h1
        rw [quadkey_loop_cons1, ih]
        simp
      · by_cases h2 : c = '2'
        · subst h2
          rw [quadkey_loop_cons2, ih]
          simp
        · by_cases h3 : c = '3'
          · subst h3
            rw [quadkey_loop_cons3, ih]
            simp
          · have he : quadkey_loop (c :: rest) i ax ay =
                Except.error "Invalid QuadKey digit sequence." := by
              simp [quadkey_loop, h0, h1, h2, h3]
            rw [he]
            constructor
            · intro _
              exact ⟨c, List.mem_cons_self c rest, h0, h1, h2, h3⟩
            · intro _
              rfl

/-- The decode loop returns a result when every remaining character is one of
`'0' '1' '2' '3'`. -/
lemma quadkey_loop_ok (chars : List Char) :
    ∀ i ax ay, (∀ c ∈ chars, c = '0' ∨ c = '1' ∨ c = '2' ∨ c = '3') →
      ∃ p : ℕ × ℕ, quadkey_loop chars i ax ay = Except.ok p := by
  induction chars with
  | nil =>
    intro i ax ay _
    exact ⟨(ax, ay), rfl⟩
  | cons c rest ih =>
    intro i ax ay hall
    have htail : ∀ c ∈ rest, c = '0' ∨ c = '1' ∨ c = '2' ∨ c = '3' :=
      fun d hd => hall d (List.mem_cons_of_mem c hd)
    rcases hall c (List.mem_cons_self c rest) with rfl | rfl | rfl | rfl
    · rw [quadkey_loop_cons0]
      exact ih _ _ _ htail
    · rw [quadkey_loop_cons1]
      exact ih _ _ _ htail
    · rw [quadkey_loop_cons2]
      exact ih _ _ _ htail
    · rw [quadkey_loop_cons3]
      exact ih _ _ _ htail

lemma quadkey_to_tile_xy_error (quadkey s : String) :
    quadkey_to_tile_xy quadkey = Except.error s ↔
      quadkey_loop quadkey.data quadkey.length 0 0 = Except.error s := by
  unfold quadkey_to_tile_xy
  cases hl : quadkey_loop quadkey.data quadkey.length 0 0 with
  | ok v =>
    obtain ⟨tx, ty⟩ := v
    simp
  | error e =>
    simp

/-- C3: `quadkey_to_tile_xy` fails with the invalid-digit error exactly when
some character of the input is outside `{'0','1','2','3'}`, and on every
string over that alphabet it returns a complete result. -/
theorem quadkey_to_tile_xy_error_iff (quadkey : String) :
    (quadkey_to_tile_xy quadkey = Except.error "Invalid QuadKey digit sequence." ↔
      ∃ c ∈ quadkey.data, c ≠ '0' ∧ c ≠ '1' ∧ c ≠ '2' ∧ c ≠ '3') ∧
    ((∀ c ∈ quadkey.data, c = '0' ∨ c = '1' ∨ c = '2' ∨ c = '3') →
      ∃ r : ℕ × ℕ × ℕ, quadkey_to_tile_xy quadkey = Except.ok r) := by
  constructor
  · rw [quadkey_to_tile_xy_error]
    exact quadkey_loop_error_iff quadkey.data quadkey.length 0 0
  · intro hall
    obtain ⟨⟨tx, ty⟩, hp⟩ :=
      quadkey_loop_ok quadkey.data quadkey.length 0 0 hall
    refine ⟨(tx, ty, quadkey.length), ?_⟩
    unfold quadkey_to_tile_xy
    rw [hp]

/-- Witness for C3 at the spec's example input `"9"`. -/
theorem quadkey_to_tile_xy_error_witness :
    quadkey_to_tile_xy "9" = Except.error "Invalid QuadKey digit sequence." :=
  (quadkey_to_tile_xy_error_iff "9").1.mpr
    ⟨'9', by decide, by decide, by decide, by decide, by decide⟩

/-- Every successful run of the decode loop started with in-range accumulators
and at most `n` characters left stays below `2 ^ n`. -/
lemma quadkey_loop_lt (n : ℕ) (chars : List Char) :
    ∀ i ax ay tx ty, chars.length ≤ n → i ≤ n → ax < 2 ^ n → ay < 2 ^ n →
      quadkey_loop chars i ax ay = Except.ok (tx, ty) →
      tx < 2 ^ n ∧ ty < 2 ^ n := by
  induction chars with
  | nil =>
    intro i ax ay tx ty _ _ hax hay h
    simp only [quadkey_loop, Except.ok.injEq, Prod.mk.injEq] at h
    omega
  | cons c rest ih =>
    intro i ax ay tx ty hlen hi hax hay h
    have hlen' : rest.length ≤ n := by
      simp only [List.length_cons] at hlen
      omega
    have hmask : (1 <<< (i - 1)) < 2 ^ n := by
      rw [Nat.one_shiftLeft]
      have hn : 1 ≤ n := by
        simp only [List.length_cons] at hlen
        omega
      exact Nat.pow_lt_pow_right (by omega) (by omega)
    by_cases h0 : c = '0'
    · subst h0
      rw [quadkey_loop_cons0] at h
      exact ih _ _ _ _ _ hlen' (by omega) hax hay h
    · by_cases h1 : c = '1'
      · subst h1
        rw [quadkey_loop_cons1] at h
        exact ih _ _ _ _ _ hlen' (by omega) (Nat.or_lt_two_pow hax hmask) hay h
      · by_cases h2 : c = '2'
        · subst h2
          rw [quadkey_loop_cons2] at h
          exact ih _ _ _ _ _ hlen' (by omega) hax (Nat.or_lt_two_pow hay hmask) h
        · by_cases h3 : c = '3'
          · subst h3
            rw [quadkey_loop_cons3] at h
            exact ih _ _ _ _ _ hlen' (by omega)
              (Nat.or_lt_two_pow hax hmask) (Nat.or_lt_two_pow hay hmask) h
          · have he : quadkey_loop (c :: rest) i ax ay =
                Except.error "Invalid QuadKey digit sequence." := by
              simp [quadkey_loop, h0, h1, h2, h3]
            rw [he] at h
            exact absurd h (by simp)

/-- C9: whenever `quadkey_to_tile_xy` succeeds, the decoded level of detail is
the input length and the decoded tile coordinates are below `2 ^ lod`. -/
theorem quadkey_to_tile_xy_in_range (quadkey : String)
    (tile_x tile_y level_of_detail : ℕ)
    (h : quadkey_to_tile_xy quadkey =
      Except.ok (tile_x, tile_y, level_of_detail)) :
    level_of_detail = quadkey.length ∧
      tile_x < 2 ^ level_of_detail ∧ tile_y < 2 ^ level_of_detail := by
  unfold quadkey_to_tile_xy at h
  cases hl : quadkey_loop quadkey.data quadkey.length 0 0 with
  | ok v =>
    obtain ⟨tx, ty⟩ := v
    rw [hl] at h
    simp only [Except.ok.injEq, Prod.mk.injEq] at h
    obtain ⟨rfl, rfl, rfl⟩ := h
    have hdl : quadkey.data.length = quadkey.length := rfl
    have hpos : 0 < 2 ^ quadkey.length := Nat.pow_pos (by omega)
    refine ⟨rfl, ?_⟩
    exact quadkey_loop_lt quadkey.length quadkey.data _ _ _ _ _
      (le_of_eq hdl) (le_refl _) hpos hpos hl
  | error e =>
    rw [hl] at h
    exact absurd h (by simp)

/-- Witness for C9 at input `"3"`, which decodes to `(1, 1, 1)`. -/
theorem quadkey_to_tile_xy_in_range_witness :
    1 = ("3" : String).length ∧ 1 < 2 ^ 1 ∧ 1 < 2 ^ 1 :=
  quadkey_to_tile_xy_in_range "3" 1 1 1 rfl

/-- Position `p` of the encoded character list carries the digit built from
bit `n - 1 - p` of the two tile coordinates. -/
lemma quadkey_chars_get (tile_x tile_y : ℕ) :
    ∀ n p, p < n → (quadkey_chars tile_x tile_y n).get? p =
      some (Nat.digitChar
        (tile_x / 2 ^ (n - 1 - p) % 2 + 2 * (tile_y / 2 ^ (n - 1 - p) % 2))) := by
  intro n
  induction n with
  | zero =>
    intro p hp
    exact absurd hp (Nat.not_lt_zero p)
  | succ n ih =>
    intro p hp
    cases p with
    | zero =>
      have e : n + 1 - 1 - 0 = n := by omega
      simp only [quadkey_chars, List.get?, e]
      rw [quad_digit_eq]
    | succ p =>
      have e : n + 1 - 1 - (p + 1) = n - 1 - p := by omega
      simp only [quadkey_chars, List.get?, e]
      exact ih p (by omega)

/-- Every character produced by the encode loop is one of `'0' '1' '2' '3'`. -/
lemma quadkey_chars_mem (tile_x tile_y : ℕ) :
    ∀ n, ∀ c ∈ quadkey_chars tile_x tile_y n,
      c = '0' ∨ c = '1' ∨ c = '2' ∨ c = '3' := by
  intro n
  induction n with
  | zero =>
    intro c hc
    simp [quadkey_chars] at hc
  | succ n ih =>
    intro c hc
    simp only [quadkey_chars, List.mem_cons] at hc
    rcases hc with rfl | hc
    · have hd := quad_digit_eq tile_x tile_y n
      have m1 : tile_x / 2 ^ n % 2 < 2 := Nat.mod_lt _ (by omega)
      have m2 : tile_y / 2 ^ n % 2 < 2 := Nat.mod_lt _ (by omega)
      have hv : quad_digit tile_x tile_y n = 0 ∨ quad_digit tile_x tile_y n = 1 ∨
          quad_digit tile_x tile_y n = 2 ∨ quad_digit tile_x tile_y n = 3 := by omega
      rcases hv with h | h | h | h <;> rw [h] <;> decide
    · exact ih c hc

/-- C4: for positive `lod` and in-range tile coordinates, the quadkey has
length `lod`, its character at position `p` is the decimal digit
`bit (lod-1-p) of tile_x + 2 * bit (lod-1-p) of tile_y`, every character is in
`{'0','1','2','3'}`, and the spec's four concrete examples hold. -/
theorem tile_xy_to_quadkey_format :
    (∀ tile_x tile_y level_of_detail : ℕ,
      0 < level_of_detail → tile_x < 2 ^ level_of_detail →
        tile_y < 2 ^ level_of_detail →
        (tile_xy_to_quadkey tile_x tile_y level_of_detail).length =
            level_of_detail ∧
          (∀ p, p < level_of_detail →
            (tile_xy_to_quadkey tile_x tile_y level_of_detail).data.get? p =
              some (Nat.digitChar
                (tile_x / 2 ^ (level_of_detail - 1 - p) % 2 +
                  2 * (tile_y / 2 ^ (level_of_detail - 1 - p) % 2)))) ∧
          (∀ c ∈ (tile_xy_to_quadkey tile_x tile_y level_of_detail).data,
            c = '0' ∨ c = '1' ∨ c = '2' ∨ c = '3')) ∧
    tile_xy_to_quadkey 3 3 2 = "33" ∧ tile_xy_to_quadkey 0 0 2 = "00" ∧
    tile_xy_to_quadkey 1 0 1 = "1" ∧ tile_xy_to_quadkey 0 1 1 = "2" := by
  refine ⟨?_, by decide, by decide, by decide, by decide⟩
  intro tile_x tile_y level_of_detail _ _ _
  refine ⟨quadkey_chars_length _ _ _, ?_, ?_⟩
  · intro p hp
    exact quadkey_chars_get tile_x tile_y level_of_detail p hp
  · intro c hc
    exact quadkey_chars_mem tile_x tile_y level_of_detail c hc

/-- Witness for C4 at `tile_x = 1`, `tile_y = 0`, `lod = 1`. -/
theorem tile_xy_to_quadkey_format_witness :
    (tile_xy_to_quadkey 1 0 1).length = 1 :=
  (tile_xy_to_quadkey_format.1 1 0 1 (by decide) (by decide) (by decide)).1

/-- C7: at level of detail `0` the encode loop body never runs, so the quadkey
is empty for every tile coordinate, and decoding the empty string gives
`(0, 0, 0)`. -/
theorem quadkey_lod_zero :
    (∀ tile_x tile_y : ℕ, tile_xy_to_quadkey tile_x tile_y 0 = "") ∧
    quadkey_to_tile_xy "" = Except.ok (0, 0, 0) :=
  ⟨fun _ _ => rfl, rfl⟩

/-- The encoded characters only depend on the low `lod` bits of the tile
coordinates, as long as the loop counter stays at most `lod`. -/
lemma quadkey_chars_mod (tile_x tile_y lod : ℕ) :
    ∀ n, n ≤ lod →
      quadkey_chars (tile_x % 2 ^ lod) (tile_y % 2 ^ lod) n =
        quadkey_chars tile_x tile_y n := by
  intro n
  induction n with
  | zero =>
    intro _
    rfl
  | succ n ih =>
    intro h
    have hbit : ∀ x : ℕ, x % 2 ^ lod / 2 ^ n % 2 = x / 2 ^ n % 2 := by
      intro x
      have ht : (x % 2 ^ lod).testBit n = x.testBit n := by
        rw [Nat.testBit_mod_two_pow]
        simp [show n < lod by omega]
      rw [Nat.testBit_to_div_mod, Nat.testBit_to_div_mod] at ht
      have hiff := decide_eq_decide.mp ht
      have b1 : x % 2 ^ lod / 2 ^ n % 2 < 2 := Nat.mod_lt _ (by omega)
      have b2 : x / 2 ^ n % 2 < 2 := Nat.mod_lt _ (by omega)
      omega
    simp only [quadkey_chars]
    rw [ih (by omega), quad_digit_eq, quad_digit_eq, hbit tile_x, hbit tile_y]

/-- C10: `tile_xy_to_quadkey` only reads the low `lod` bits of its tile
inputs — out-of-range coordinates are silently wrapped modulo `2 ^ lod`. -/
theorem tile_xy_to_quadkey_mod (tile_x tile_y level_of_detail : ℕ) :
    tile_xy_to_quadkey tile_x tile_y level_of_detail =
      tile_xy_to_quadkey (tile_x % 2 ^ level_of_detail)
        (tile_y % 2 ^ level_of_detail) level_of_detail := by
  unfold tile_xy_to_quadkey
  rw [quadkey_chars_mod tile_x tile_y level_of_detail level_of_detail
    (le_refl _)]

lemma clip_mem (n min_value max_value : ℝ) (h : min_value ≤ max_value) :
    min_value ≤ clip n min_value max_value ∧
      clip n min_value max_value ≤ max_value :=
  ⟨le_min (le_max_right _ _) h, min_le_right _ _⟩

lemma one_le_map_size (level_of_detail : ℕ) :
    (1 : ℝ) ≤ (map_size level_of_detail : ℝ) := by
  have hp : 0 < 2 ^ level_of_detail := Nat.pow_pos (by omega)
  have h : (1 : ℕ) ≤ map_size level_of_detail := by
    unfold map_size
    rw [Nat.shiftLeft_eq]
    omega
  exact_mod_cast h

/-- C5: for every real latitude and longitude and every `lod`, both pixel
coordinates returned by `latlong_to_pixel_xy` lie within
`[0, map_size lod - 1]` — the final `clip` guarantees the bounds whatever the
projection formulas produce. -/
theorem latlong_to_pixel_xy_in_range (latitude longitude : ℝ)
    (level_of_detail : ℕ) :
    0 ≤ (latlong_to_pixel_xy latitude longitude level_of_detail).1 ∧
    (latlong_to_pixel_xy latitude longitude level_of_detail).1 ≤
      (map_size level_of_detail : ℝ) - 1 ∧
    0 ≤ (latlong_to_pixel_xy latitude longitude level_of_detail).2 ∧
    (latlong_to_pixel_xy latitude longitude level_of_detail).2 ≤
      (map_size level_of_detail : ℝ) - 1 := by
  have hge : (0 : ℝ) ≤ (map_size level_of_detail : ℝ) - 1 := by
    have := one_le_map_size level_of_detail
    linarith
  unfold latlong_to_pixel_xy
  dsimp only
  exact ⟨(clip_mem _ _ _ hge).1, (clip_mem _ _ _ hge).2,
    (clip_mem _ _ _ hge).1, (clip_mem _ _ _ hge).2⟩

/-- C6: `tile_xy_to_pixel_xy` returns `(tile_x * 256, tile_y * 256)`, which is
a pixel of tile `(tile_x, tile_y)` under floor division by 256 and is the
least such pixel in each coordinate — the upper-left corner, not the
center. -/
theorem tile_xy_to_pixel_xy_corner (tile_x tile_y : ℕ) :
    tile_xy_to_pixel_xy tile_x tile_y = (tile_x * 256, tile_y * 256) ∧
    (tile_xy_to_pixel_xy tile_x tile_y).1 / 256 = tile_x ∧
    (tile_xy_to_pixel_xy tile_x tile_y).2 / 256 = tile_y ∧
    (∀ pixel_x pixel_y : ℕ, pixel_x / 256 = tile_x → pixel_y / 256 = tile_y →
      (tile_xy_to_pixel_xy tile_x tile_y).1 ≤ pixel_x ∧
      (tile_xy_to_pixel_xy tile_x tile_y).2 ≤ pixel_y) := by
  refine ⟨rfl, ?_, ?_, ?_⟩
  · show tile_x * 256 / 256 = tile_x
    omega
  · show tile_y * 256 / 256 = tile_y
    omega
  · intro pixel_x pixel_y h1 h2
    constructor
    · show tile_x * 256 ≤ pixel_x
      omega
    · show tile_y * 256 ≤ pixel_y
      omega

/-- Witness for C6 at tile `(1, 2)` with pixels `(300, 600)`. -/
theorem tile_xy_to_pixel_xy_corner_witness :
    (tile_xy_to_pixel_xy 1 2).1 ≤ 300 ∧ (tile_xy_to_pixel_xy 1 2).2 ≤ 600 :=
  (tile_xy_to_pixel_xy_corner 1 2).2.2.2 300 600 (by decide) (by decide)

/-- C2 counterexample: at pixel `(300, 0)` the code's true division returns
the fractional tile coordinate `75/64 = 1.171875`, not the floor-division
value `300 / 256 = 1` required by the claim (and by the function's own
docstring, which promises integer tile coordinates of the containing
tile). -/
theorem pixel_xy_to_tile_xy_true_division :
    pixel_xy_to_tile_xy 300 0 = (75 / 64, 0) ∧
    (pixel_xy_to_tile_xy 300 0).1 ≠ ((300 / 256 : ℕ) : ℚ) := by
  unfold pixel_xy_to_tile_xy
  norm_num

/-! ### Round trip of the two projections -/

lemma clip_eq_self {n min_value max_value : ℝ}
    (h1 : min_value ≤ n) (h2 : n ≤ max_value) :
    clip n min_value max_value = n := by
  unfold clip
  rw [max_eq_left h1, min_eq_left h2]

lemma latlong_to_pixel_xy_eq (latitude longitude : ℝ) (level_of_detail : ℕ) :
    latlong_to_pixel_xy latitude longitude level_of_detail =
      (clip ((clip longitude MIN_LONGITUDE MAX_LONGITUDE + 180) / 360 *
          (map_size level_of_detail : ℝ) + 0.5) 0
          ((map_size level_of_detail : ℝ) - 1),
       clip (mercator_y (clip latitude MIN_LATITUDE MAX_LATITUDE) *
          (map_size level_of_detail : ℝ) + 0.5) 0
          ((map_size level_of_detail : ℝ) - 1)) := rfl

lemma pixel_xy_to_latlong_eq (pixel_x pixel_y : ℝ) (level_of_detail : ℕ) :
    pixel_xy_to_latlong pixel_x pixel_y level_of_detail =
      (inverse_mercator_lat
          (0.5 - clip pixel_y 0 ((map_size level_of_detail : ℝ) - 1) /
            (map_size level_of_detail : ℝ)),
       360 * (clip pixel_x 0 ((map_size level_of_detail : ℝ) - 1) /
            (map_size level_of_detail : ℝ) - 0.5)) := rfl

/-- Composing the decoder's latitude formula with the encoder's vertical
projection is exactly the identity on the normalized vertical coordinate:
the two projections have no algorithmic asymmetry. -/
lemma mercator_y_inverse_mercator_lat (y : ℝ) :
    mercator_y (inverse_mercator_lat y) = 0.5 - y := by
  unfold mercator_y inverse_mercator_lat
  dsimp only
  have hπ : Real.pi ≠ 0 := Real.pi_ne_zero
  set u := Real.exp (-y * 2 * Real.pi) with hu
  have hu0 : 0 < u := Real.exp_pos _
  have hang : (90 - 360 * Real.arctan u / Real.pi) * Real.pi / 180 =
      Real.pi / 2 - 2 * Real.arctan u := by
    field_simp
    ring
  rw [hang, Real.sin_pi_div_two_sub, Real.cos_two_mul, Real.cos_sq_arctan]
  have h1 : (1 : ℝ) + u ^ 2 ≠ 0 := by positivity
  have hu2 : u ^ 2 ≠ 0 := by positivity
  have hratio : (1 + (2 * (1 / (1 + u ^ 2)) - 1)) /
      (1 - (2 * (1 / (1 + u ^ 2)) - 1)) = 1 / u ^ 2 := by
    field_simp
    rw [show (1 : ℝ) + u ^ 2 - (2 - (1 + u ^ 2)) = 2 * u ^ 2 by ring]
    rw [div_self (by positivity)]
  rw [hratio]
  have hlog : Real.log (1 / u ^ 2) = y * (4 * Real.pi) := by
    rw [Real.log_div (by norm_num) hu2, Real.log_one, Real.log_pow, hu,
      Real.log_exp]
    push_cast
    ring
  rw [hlog]
  field_simp

/-- Square of the tangent of `pi/4 - phi/2` in terms of `sin phi`, together
with its positivity, for `phi` strictly inside `(-pi/2, pi/2)`. -/
lemma tan_sq_pi_div_four_sub (φ : ℝ) (ha : -(Real.pi / 2) < φ)
    (hb : φ < Real.pi / 2) :
    Real.tan (Real.pi / 4 - φ / 2) ^ 2 = (1 - Real.sin φ) / (1 + Real.sin φ) ∧
      0 < Real.tan (Real.pi / 4 - φ / 2) := by
  have hπ : (0:ℝ) < Real.pi := Real.pi_pos
  have hθ1 : 0 < Real.pi / 4 - φ / 2 := by linarith
  have hθ2 : Real.pi / 4 - φ / 2 < Real.pi / 2 := by linarith
  have hcosθ : 0 < Real.cos (Real.pi / 4 - φ / 2) :=
    Real.cos_pos_of_mem_Ioo ⟨by linarith, hθ2⟩
  have hsinθ : 0 < Real.sin (Real.pi / 4 - φ / 2) :=
    Real.sin_pos_of_pos_of_lt_pi hθ1 (by linarith)
  have htanθ : 0 < Real.tan (Real.pi / 4 - φ / 2) := by
    rw [Real.tan_eq_sin_div_cos]
    positivity
  refine ⟨?_, htanθ⟩
  have hsθ : Real.sin (Real.pi / 4 - φ / 2) =
      Real.sqrt 2 / 2 * (Real.cos (φ / 2) - Real.sin (φ / 2)) := by
    rw [Real.sin_sub, Real.sin_pi_div_four, Real.cos_pi_div_four]
    ring
  have hcθ : Real.cos (Real.pi / 4 - φ / 2) =
      Real.sqrt 2 / 2 * (Real.cos (φ / 2) + Real.sin (φ / 2)) := by
    rw [Real.cos_sub, Real.sin_pi_div_four, Real.cos_pi_div_four]
    ring
  have hpyth := Real.sin_sq_add_cos_sq (φ / 2)
  have hsin2 : Real.sin φ = 2 * Real.sin (φ / 2) * Real.cos (φ / 2) := by
    have e := Real.sin_two_mul (φ / 2)
    rw [show 2 * (φ / 2) = φ by ring] at e
    exact e
  have h1s : 1 - Real.sin φ = (Real.cos (φ / 2) - Real.sin (φ / 2)) ^ 2 := by
    have e : (Real.cos (φ / 2) - Real.sin (φ / 2)) ^ 2 =
        Real.sin (φ / 2) ^ 2 + Real.cos (φ / 2) ^ 2 -
          2 * Real.sin (φ / 2) * Real.cos (φ / 2) := by ring
    rw [e, hpyth, ← hsin2]
  have h1s' : 1 + Real.sin φ = (Real.cos (φ / 2) + Real.sin (φ / 2)) ^ 2 := by
    have e : (Real.cos (φ / 2) + Real.sin (φ / 2)) ^ 2 =
        Real.sin (φ / 2) ^ 2 + Real.cos (φ / 2) ^ 2 +
          2 * Real.sin (φ / 2) * Real.cos (φ / 2) := by ring
    rw [e, hpyth, ← hsin2]
  have hk : (Real.sqrt 2 / 2) ^ 2 = 1 / 2 := by
    rw [div_pow, Real.sq_sqrt (by norm_num : (0:ℝ) ≤ 2)]
    norm_num
  rw [Real.tan_eq_sin_div_cos, div_pow, hsθ, hcθ, mul_pow, mul_pow, hk,
    h1s, h1s']
  rw [mul_div_mul_left _ _ (by norm_num : (1:ℝ) / 2 ≠ 0)]

/-- Evaluating `arctan (exp (-(log R)/2))` when `tan θ` is the positive square
root of `R⁻¹`. -/
lemma arctan_exp_half_log (R θ : ℝ) (hR : 0 < R)
    (hθa : -(Real.pi / 2) < θ) (hθb : θ < Real.pi / 2)
    (ht0 : 0 < Real.tan θ) (ht2 : Real.tan θ ^ 2 = R⁻¹) :
    Real.arctan (Real.exp (-Real.log R / 2)) = θ := by
  have hu0 : 0 < Real.exp (-Real.log R / 2) := Real.exp_pos _
  have hu2 : Real.exp (-Real.log R / 2) ^ 2 = R⁻¹ := by
    rw [pow_two, ← Real.exp_add,
      show -Real.log R / 2 + -Real.log R / 2 = -Real.log R by ring,
      Real.exp_neg, Real.exp_log hR]
  have hz : Real.exp (-Real.log R / 2) ^ 2 - Real.tan θ ^ 2 = 0 := by
    rw [hu2, ht2]
    ring
  have hfac : (Real.exp (-Real.log R / 2) - Real.tan θ) *
      (Real.exp (-Real.log R / 2) + Real.tan θ) = 0 := by
    have e : (Real.exp (-Real.log R / 2) - Real.tan θ) *
        (Real.exp (-Real.log R / 2) + Real.tan θ) =
          Real.exp (-Real.log R / 2) ^ 2 - Real.tan θ ^ 2 := by ring
    rw [e, hz]
  have heq : Real.exp (-Real.log R / 2) = Real.tan θ := by
    rcases mul_eq_zero.mp hfac with h | h
    · linarith
    · linarith
  rw [heq, Real.arctan_tan hθa hθb]

/-- Composing the encoder's vertical projection with the decoder's latitude
formula is the identity on latitudes strictly inside `(-90, 90)`: the inverse
Mercator formula undoes the forward Mercator formula exactly. -/
lemma inverse_mercator_lat_mercator_y (latitude : ℝ)
    (h1 : -90 < latitude) (h2 : latitude < 90) :
    inverse_mercator_lat (0.5 - mercator_y latitude) = latitude := by
  have hπ : (0:ℝ) < Real.pi := Real.pi_pos
  have hφa : -(Real.pi / 2) < latitude * Real.pi / 180 := by
    nlinarith [mul_pos (show (0:ℝ) < latitude + 90 by linarith) hπ]
  have hφb : latitude * Real.pi / 180 < Real.pi / 2 := by
    nlinarith [mul_pos (show (0:ℝ) < 90 - latitude by linarith) hπ]
  have hcos : 0 < Real.cos (latitude * Real.pi / 180) :=
    Real.cos_pos_of_mem_Ioo ⟨hφa, hφb⟩
  have hs2 : Real.sin (latitude * Real.pi / 180) ^ 2 < 1 := by
    nlinarith [Real.sin_sq_add_cos_sq (latitude * Real.pi / 180)]
  have hs_lt : Real.sin (latitude * Real.pi / 180) < 1 := by
    nlinarith [sq_nonneg (Real.sin (latitude * Real.pi / 180) - 1)]
  have hs_gt : -1 < Real.sin (latitude * Real.pi / 180) := by
    nlinarith [sq_nonneg (Real.sin (latitude * Real.pi / 180) + 1)]
  have hR0 : 0 < (1 + Real.sin (latitude * Real.pi / 180)) /
      (1 - Real.sin (latitude * Real.pi / 180)) :=
    div_pos (by linarith) (by linarith)
  obtain ⟨htan2, htan0⟩ :=
    tan_sq_pi_div_four_sub (latitude * Real.pi / 180) hφa hφb
  have hinv : Real.tan (Real.pi / 4 - latitude * Real.pi / 180 / 2) ^ 2 =
      ((1 + Real.sin (latitude * Real.pi / 180)) /
        (1 - Real.sin (latitude * Real.pi / 180)))⁻¹ := by
    rw [htan2, inv_div]
  have hmy : 0.5 - mercator_y latitude =
      Real.log ((1 + Real.sin (latitude * Real.pi / 180)) /
        (1 - Real.sin (latitude * Real.pi / 180))) / (4 * Real.pi) := by
    unfold mercator_y
    dsimp only
    ring
  have hdef : inverse_mercator_lat
      (Real.log ((1 + Real.sin (latitude * Real.pi / 180)) /
        (1 - Real.sin (latitude * Real.pi / 180))) / (4 * Real.pi)) =
      90 - 360 * Real.arctan (Real.exp
        (-(Real.log ((1 + Real.sin (latitude * Real.pi / 180)) /
          (1 - Real.sin (latitude * Real.pi / 180))) / (4 * Real.pi)) *
            2 * Real.pi)) / Real.pi := rfl
  have hexp : -(Real.log ((1 + Real.sin (latitude * Real.pi / 180)) /
      (1 - Real.sin (latitude * Real.pi / 180))) / (4 * Real.pi)) *
        2 * Real.pi =
      -Real.log ((1 + Real.sin (latitude * Real.pi / 180)) /
        (1 - Real.sin (latitude * Real.pi / 180))) / 2 := by
    field_simp
    ring
  rw [hmy, hdef, hexp,
    arctan_exp_half_log _ (Real.pi / 4 - latitude * Real.pi / 180 / 2) hR0
      (by linarith) (by linarith) htan0 hinv]
  field_simp
  ring

/-- The decoder's latitude formula is monotone in the normalized vertical
coordinate. -/
lemma inverse_mercator_lat_mono (a b : ℝ) (hab : a ≤ b) :
    inverse_mercator_lat a ≤ inverse_mercator_lat b := by
  unfold inverse_mercator_lat
  have hπ : (0:ℝ) < Real.pi := Real.pi_pos
  have h1 : Real.exp (-b * 2 * Real.pi) ≤ Real.exp (-a * 2 * Real.pi) := by
    apply Real.exp_le_exp.mpr
    nlinarith [mul_nonneg (sub_nonneg.mpr hab) (le_of_lt hπ)]
  have h2 : Real.arctan (Real.exp (-b * 2 * Real.pi)) ≤
      Real.arctan (Real.exp (-a * 2 * Real.pi)) :=
    Real.arctan_strictMono.monotone h1
  have h3 : 360 * Real.arctan (Real.exp (-b * 2 * Real.pi)) / Real.pi ≤
      360 * Real.arctan (Real.exp (-a * 2 * Real.pi)) / Real.pi :=
    (div_le_div_iff_of_pos_right hπ).mpr (by linarith)
  linarith

/-- Derivative of the decoder's latitude formula. -/
lemma inverse_mercator_lat_hasDerivAt (y : ℝ) :
    HasDerivAt inverse_mercator_lat
      (720 * Real.exp (-y * 2 * Real.pi) /
        (1 + Real.exp (-y * 2 * Real.pi) ^ 2)) y := by
  have hπ : (0:ℝ) < Real.pi := Real.pi_pos
  have hfun : (fun t : ℝ => -t * 2 * Real.pi) =
      fun t : ℝ => (-2 * Real.pi) * t := by
    funext t
    ring
  have h1 : HasDerivAt (fun t : ℝ => -t * 2 * Real.pi) (-2 * Real.pi) y := by
    rw [hfun]
    simpa using (hasDerivAt_id y).const_mul (-2 * Real.pi)
  have h2 := h1.exp
  have h3 := h2.arctan
  have h4 := (h3.const_mul (360:ℝ)).div_const Real.pi
  have h5 := h4.const_sub (90:ℝ)
  have hu : 0 < Real.exp (-y * 2 * Real.pi) := Real.exp_pos _
  have h1u : (0:ℝ) < 1 + Real.exp (-y * 2 * Real.pi) ^ 2 := by positivity
  unfold inverse_mercator_lat
  convert h5 using 1
  field_simp
  ring

/-- One-sided Lipschitz bound with constant `360` for the decoder's latitude
formula. -/
lemma inverse_mercator_lat_lipschitz (a b : ℝ) (hab : a ≤ b) :
    inverse_mercator_lat b - inverse_mercator_lat a ≤ 360 * (b - a) := by
  have hder : ∀ y : ℝ, HasDerivAt
      (fun t => 360 * t - inverse_mercator_lat t)
      (360 - 720 * Real.exp (-y * 2 * Real.pi) /
        (1 + Real.exp (-y * 2 * Real.pi) ^ 2)) y := by
    intro y
    have h := ((hasDerivAt_id y).const_mul (360:ℝ)).sub
      (inverse_mercator_lat_hasDerivAt y)
    simpa using h
  have hmono : Monotone (fun t => 360 * t - inverse_mercator_lat t) := by
    apply monotone_of_deriv_nonneg (fun y => (hder y).differentiableAt)
    intro y
    rw [(hder y).deriv]
    have hu : 0 < Real.exp (-y * 2 * Real.pi) := Real.exp_pos _
    have h1u : (0:ℝ) < 1 + Real.exp (-y * 2 * Real.pi) ^ 2 := by positivity
    rw [sub_nonneg, div_le_iff₀ h1u]
    nlinarith [sq_nonneg (1 - Real.exp (-y * 2 * Real.pi))]
  have h := hmono hab
  dsimp only at h
  linarith

/-- Longitude half of the lat/long to pixel round trip: the error is at most
one pixel's worth of longitude, `360 / map_size`. -/
lemma longitude_roundtrip_bound (latitude longitude : ℝ) (level_of_detail : ℕ)
    (h1 : MIN_LONGITUDE ≤ longitude) (h2 : longitude ≤ MAX_LONGITUDE) :
    |(pixel_xy_to_latlong
        (latlong_to_pixel_xy latitude longitude level_of_detail).1
        (latlong_to_pixel_xy latitude longitude level_of_detail).2
        level_of_detail).2 - longitude| ≤
      360 / (map_size level_of_detail : ℝ) := by
  have hm1 : (1:ℝ) ≤ (map_size level_of_detail : ℝ) :=
    one_le_map_size level_of_detail
  have hm0 : (0:ℝ) < (map_size level_of_detail : ℝ) := by linarith
  have h1' : (-180:ℝ) ≤ longitude := h1
  have h2' : longitude ≤ (180:ℝ) := h2
  have hlon : clip longitude MIN_LONGITUDE MAX_LONGITUDE = longitude :=
    clip_eq_self h1 h2
  have hfst : (latlong_to_pixel_xy latitude longitude level_of_detail).1 =
      clip ((longitude + 180) / 360 * (map_size level_of_detail : ℝ) + 0.5) 0
        ((map_size level_of_detail : ℝ) - 1) := by
    rw [latlong_to_pixel_xy_eq]
    dsimp only
    rw [hlon]
  rw [pixel_xy_to_latlong_eq]
  dsimp only
  rw [hfst]
  have hx0 : (0:ℝ) ≤ (longitude + 180) / 360 :=
    div_nonneg (by linarith) (by norm_num)
  have ht0 : (0:ℝ) ≤
      (longitude + 180) / 360 * (map_size level_of_detail : ℝ) + 0.5 := by
    have := mul_nonneg hx0 (le_of_lt hm0)
    linarith
  obtain ⟨hpx0, hpx1⟩ := clip_mem
    ((longitude + 180) / 360 * (map_size level_of_detail : ℝ) + 0.5) 0
    ((map_size level_of_detail : ℝ) - 1) (by linarith)
  rw [clip_eq_self hpx0 hpx1]
  by_cases hc : (longitude + 180) / 360 * (map_size level_of_detail : ℝ) + 0.5 ≤
      (map_size level_of_detail : ℝ) - 1
  · rw [clip_eq_self ht0 hc]
    have he : 360 * (((longitude + 180) / 360 * (map_size level_of_detail : ℝ) +
        0.5) / (map_size level_of_detail : ℝ) - 0.5) - longitude =
          180 / (map_size level_of_detail : ℝ) := by
      field_simp
      ring
    rw [he, abs_of_pos (by positivity)]
    exact (div_le_div_iff_of_pos_right hm0).mpr (by norm_num)
  · push_neg at hc
    have hpxtop : clip ((longitude + 180) / 360 *
        (map_size level_of_detail : ℝ) + 0.5) 0
          ((map_size level_of_detail : ℝ) - 1) =
        (map_size level_of_detail : ℝ) - 1 := by
      unfold clip
      rw [max_eq_left ht0, min_eq_right (le_of_lt hc)]
    rw [hpxtop]
    have he : 360 * (((map_size level_of_detail : ℝ) - 1) /
        (map_size level_of_detail : ℝ) - 0.5) - longitude =
          180 - 360 / (map_size level_of_detail : ℝ) - longitude := by
      field_simp
      ring
    rw [he, abs_le]
    have hdpos : (0:ℝ) < 360 / (map_size level_of_detail : ℝ) :=
      div_pos (by norm_num) hm0
    constructor
    · linarith
    · have hc' : 360 * ((map_size level_of_detail : ℝ) - 1) <
          360 * ((longitude + 180) / 360 * (map_size level_of_detail : ℝ) +
            0.5) := by
        linarith
      have he3 : 360 * ((longitude + 180) / 360 *
          (map_size level_of_detail : ℝ) + 0.5) =
            (longitude + 180) * (map_size level_of_detail : ℝ) + 180 := by
        ring
      rw [he3] at hc'
      have hfin : (180 - longitude) * (map_size level_of_detail : ℝ) ≤ 720 := by
        nlinarith [hc']
      have hgoal2 : 180 - longitude ≤ 720 / (map_size level_of_detail : ℝ) := by
        rw [le_div_iff₀ hm0]
        linarith
      have h720 : (720:ℝ) / (map_size level_of_detail : ℝ) =
          2 * (360 / (map_size level_of_detail : ℝ)) := by ring
      linarith

/-- Latitude half of the round trip: the error is at most one pixel's worth
of the normalized map (`360 / map_size` degrees after the Lipschitz bound)
plus the two fixed defects between the rounded constants `MAX_LATITUDE` and
`MIN_LATITUDE` and the exact latitudes `inverse_mercator_lat (±0.5)` of the
map edge; each defect is `0` when the constant is exactly the edge value. -/
lemma latitude_roundtrip_bound (latitude longitude : ℝ) (level_of_detail : ℕ)
    (h1 : MIN_LATITUDE ≤ latitude) (h2 : latitude ≤ MAX_LATITUDE) :
    |(pixel_xy_to_latlong
        (latlong_to_pixel_xy latitude longitude level_of_detail).1
        (latlong_to_pixel_xy latitude longitude level_of_detail).2
        level_of_detail).1 - latitude| ≤
      360 / (map_size level_of_detail : ℝ) +
        max 0 (MAX_LATITUDE - inverse_mercator_lat 0.5) +
        max 0 (inverse_mercator_lat (-0.5) - MIN_LATITUDE) := by
  have hm1 : (1:ℝ) ≤ (map_size level_of_detail : ℝ) :=
    one_le_map_size level_of_detail
  have hm0 : (0:ℝ) < (map_size level_of_detail : ℝ) := by linarith
  have hminlat : (-90:ℝ) < MIN_LATITUDE := by norm_num [MIN_LATITUDE]
  have hmaxlat : MAX_LATITUDE < (90:ℝ) := by norm_num [MAX_LATITUDE]
  have hlat : clip latitude MIN_LATITUDE MAX_LATITUDE = latitude :=
    clip_eq_self h1 h2
  have hid : inverse_mercator_lat (0.5 - mercator_y latitude) = latitude :=
    inverse_mercator_lat_mercator_y latitude (by linarith) (by linarith)
  have hsnd : (latlong_to_pixel_xy latitude longitude level_of_detail).2 =
      clip (mercator_y latitude * (map_size level_of_detail : ℝ) + 0.5) 0
        ((map_size level_of_detail : ℝ) - 1) := by
    rw [latlong_to_pixel_xy_eq]
    dsimp only
    rw [hlat]
  rw [pixel_xy_to_latlong_eq]
  dsimp only
  rw [hsnd]
  obtain ⟨hpy0, hpy1⟩ := clip_mem
    (mercator_y latitude * (map_size level_of_detail : ℝ) + 0.5) 0
    ((map_size level_of_detail : ℝ) - 1) (by linarith)
  rw [clip_eq_self hpy0 hpy1]
  have hmax1 : (0:ℝ) ≤ max 0 (MAX_LATITUDE - inverse_mercator_lat 0.5) :=
    le_max_left _ _
  have hmax2 : (0:ℝ) ≤ max 0 (inverse_mercator_lat (-0.5) - MIN_LATITUDE) :=
    le_max_left _ _
  have hdpos : (0:ℝ) < 360 / (map_size level_of_detail : ℝ) :=
    div_pos (by norm_num) hm0
  have hhalf : 180 / (map_size level_of_detail : ℝ) ≤
      360 / (map_size level_of_detail : ℝ) :=
    (div_le_div_iff_of_pos_right hm0).mpr (by norm_num)
  by_cases hcl : 0 ≤ mercator_y latitude * (map_size level_of_detail : ℝ) + 0.5
  · by_cases hcu : mercator_y latitude * (map_size level_of_detail : ℝ) + 0.5 ≤
        (map_size level_of_detail : ℝ) - 1
    · -- the encoder's pixel clip is inactive: pure half-pixel shift
      rw [clip_eq_self hcl hcu]
      have ha : 0.5 - (mercator_y latitude * (map_size level_of_detail : ℝ) +
          0.5) / (map_size level_of_detail : ℝ) =
            (0.5 - mercator_y latitude) -
              0.5 / (map_size level_of_detail : ℝ) := by
        field_simp
        ring
      rw [ha]
      have hstep : (0:ℝ) ≤ 0.5 / (map_size level_of_detail : ℝ) := by
        positivity
      have hmono : inverse_mercator_lat ((0.5 - mercator_y latitude) -
          0.5 / (map_size level_of_detail : ℝ)) ≤
            inverse_mercator_lat (0.5 - mercator_y latitude) :=
        inverse_mercator_lat_mono _ _ (by linarith)
      have hlip : inverse_mercator_lat (0.5 - mercator_y latitude) -
          inverse_mercator_lat ((0.5 - mercator_y latitude) -
            0.5 / (map_size level_of_detail : ℝ)) ≤
          360 * ((0.5 - mercator_y latitude) - ((0.5 - mercator_y latitude) -
            0.5 / (map_size level_of_detail : ℝ))) :=
        inverse_mercator_lat_lipschitz _ _ (by linarith)
      have h180 : 360 * ((0.5 - mercator_y latitude) -
          ((0.5 - mercator_y latitude) -
            0.5 / (map_size level_of_detail : ℝ))) =
          180 / (map_size level_of_detail : ℝ) := by
        ring
      rw [h180] at hlip
      rw [hid] at hmono hlip
      rw [abs_of_nonpos (by linarith)]
      linarith
    · -- south edge: the encoder clips the pixel to the last row
      push_neg at hcu
      have hpy : clip (mercator_y latitude * (map_size level_of_detail : ℝ) +
          0.5) 0 ((map_size level_of_detail : ℝ) - 1) =
            (map_size level_of_detail : ℝ) - 1 := by
        unfold clip
        rw [max_eq_left hcl, min_eq_right (le_of_lt hcu)]
      rw [hpy]
      have ha : 0.5 - ((map_size level_of_detail : ℝ) - 1) /
          (map_size level_of_detail : ℝ) =
            -0.5 + 1 / (map_size level_of_detail : ℝ) := by
        field_simp
        ring
      rw [ha]
      have h1m : (0:ℝ) < 1 / (map_size level_of_detail : ℝ) := by positivity
      have h15 : (1:ℝ) / (map_size level_of_detail : ℝ) ≤
          1.5 / (map_size level_of_detail : ℝ) :=
        (div_le_div_iff_of_pos_right hm0).mpr (by norm_num)
      have hylb : 1 - 1.5 / (map_size level_of_detail : ℝ) <
          mercator_y latitude := by
        by_contra hle
        push_neg at hle
        have hmul := mul_le_mul_of_nonneg_right hle (le_of_lt hm0)
        have he : (1 - 1.5 / (map_size level_of_detail : ℝ)) *
            (map_size level_of_detail : ℝ) =
              (map_size level_of_detail : ℝ) - 1.5 := by
          field_simp
        rw [he] at hmul
        linarith
      have hl1 : inverse_mercator_lat (-0.5 +
          1 / (map_size level_of_detail : ℝ)) -
            inverse_mercator_lat (-0.5) ≤
          360 * ((-0.5 + 1 / (map_size level_of_detail : ℝ)) - (-0.5)) :=
        inverse_mercator_lat_lipschitz _ _ (by linarith)
      have h360 : 360 * ((-0.5 + 1 / (map_size level_of_detail : ℝ)) -
          (-0.5)) = 360 / (map_size level_of_detail : ℝ) := by
        ring
      rw [h360] at hl1
      have hmb : inverse_mercator_lat (-0.5) - MIN_LATITUDE ≤
          max 0 (inverse_mercator_lat (-0.5) - MIN_LATITUDE) :=
        le_max_right _ _
      have hmono2 : inverse_mercator_lat (0.5 - mercator_y latitude) ≤
          inverse_mercator_lat (-0.5 +
            1.5 / (map_size level_of_detail : ℝ)) :=
        inverse_mercator_lat_mono _ _ (by linarith)
      have hl2 : inverse_mercator_lat (-0.5 +
          1.5 / (map_size level_of_detail : ℝ)) -
            inverse_mercator_lat (-0.5 +
              1 / (map_size level_of_detail : ℝ)) ≤
          360 * ((-0.5 + 1.5 / (map_size level_of_detail : ℝ)) -
            (-0.5 + 1 / (map_size level_of_detail : ℝ))) :=
        inverse_mercator_lat_lipschitz _ _ (by linarith)
      have h180' : 360 * ((-0.5 + 1.5 / (map_size level_of_detail : ℝ)) -
          (-0.5 + 1 / (map_size level_of_detail : ℝ))) =
            180 / (map_size level_of_detail : ℝ) := by
        ring
      rw [h180'] at hl2
      rw [hid] at hmono2
      rw [abs_le]
      constructor
      · linarith
      · linarith
  · -- north edge: the encoder clips the pixel to the first row
    push_neg at hcl
    have hpy : clip (mercator_y latitude * (map_size level_of_detail : ℝ) +
        0.5) 0 ((map_size level_of_detail : ℝ) - 1) = 0 := by
      unfold clip
      rw [max_eq_right (le_of_lt hcl), min_eq_left (by linarith)]
    rw [hpy]
    have ha : 0.5 - (0:ℝ) / (map_size level_of_detail : ℝ) = 0.5 := by
      rw [zero_div, sub_zero]
    rw [ha]
    have hyE : mercator_y latitude < 0 := by
      by_contra hge
      push_neg at hge
      have := mul_nonneg hge (le_of_lt hm0)
      linarith
    have hmono : inverse_mercator_lat 0.5 ≤
        inverse_mercator_lat (0.5 - mercator_y latitude) :=
      inverse_mercator_lat_mono _ _ (by linarith)
    rw [hid] at hmono
    rw [abs_of_nonpos (by linarith)]
    have hma : MAX_LATITUDE - inverse_mercator_lat 0.5 ≤
        max 0 (MAX_LATITUDE - inverse_mercator_lat 0.5) :=
      le_max_right _ _
    linarith

/-- C8: the lat/long to pixel to lat/long round trip at a fixed level of
detail returns the input within a tolerance set by the pixel mapping alone.
The longitude error is at most one pixel's worth of longitude
(`360 / map_size` degrees).  The latitude error is at most one pixel's worth
of the normalized map through the decoder's 360-Lipschitz latitude formula,
plus the two constant defects `max 0 (MAX_LATITUDE - inverse_mercator_lat 0.5)`
and `max 0 (inverse_mercator_lat (-0.5) - MIN_LATITUDE)`, which measure how
far the code's rounded constants `±85.05112878` sit outside the exact
latitudes of the map's first and last pixel rows (each is `0` for exact
constants; numerically each is about `2e-10` degrees, below a pixel at every
documented level of detail).  The last two conjuncts are the exact inverse
identities of the two projection formulas — on the claim's latitude range and
on every normalized vertical coordinate respectively — so the round-trip
error comes only from the pixel quantization stage, not from an algorithmic
asymmetry between the two projections. -/
theorem latlong_pixel_roundtrip (latitude longitude : ℝ)
    (level_of_detail : ℕ)
    (hlat1 : MIN_LATITUDE ≤ latitude) (hlat2 : latitude ≤ MAX_LATITUDE)
    (hlon1 : MIN_LONGITUDE ≤ longitude) (hlon2 : longitude ≤ MAX_LONGITUDE) :
    |(pixel_xy_to_latlong
        (latlong_to_pixel_xy latitude longitude level_of_detail).1
        (latlong_to_pixel_xy latitude longitude level_of_detail).2
        level_of_detail).2 - longitude| ≤
      360 / (map_size level_of_detail : ℝ) ∧
    |(pixel_xy_to_latlong
        (latlong_to_pixel_xy latitude longitude level_of_detail).1
        (latlong_to_pixel_xy latitude longitude level_of_detail).2
        level_of_detail).1 - latitude| ≤
      360 / (map_size level_of_detail : ℝ) +
        max 0 (MAX_LATITUDE - inverse_mercator_lat 0.5) +
        max 0 (inverse_mercator_lat (-0.5) - MIN_LATITUDE) ∧
    inverse_mercator_lat (0.5 - mercator_y latitude) = latitude ∧
    (∀ y : ℝ, mercator_y (inverse_mercator_lat y) = 0.5 - y) :=
  ⟨longitude_roundtrip_bound latitude longitude level_of_detail hlon1 hlon2,
   latitude_roundtrip_bound latitude longitude level_of_detail hlat1 hlat2,
   inverse_mercator_lat_mercator_y latitude
     (by
       have h : (-90:ℝ) < MIN_LATITUDE := by norm_num [MIN_LATITUDE]
       linarith)
     (by
       have h : MAX_LATITUDE < (90:ℝ) := by norm_num [MAX_LATITUDE]
       linarith),
   fun y => mercator_y_inverse_mercator_lat y⟩

/-- Witness for C8 at `latitude = 0`, `longitude = 0`, `lod = 1`. -/
theorem latlong_pixel_roundtrip_witness :
    |(pixel_xy_to_latlong (latlong_to_pixel_xy 0 0 1).1
        (latlong_to_pixel_xy 0 0 1).2 1).2 - 0| ≤ 360 / (map_size 1 : ℝ) :=
  (latlong_pixel_roundtrip 0 0 1
    (by norm_num [MIN_LATITUDE]) (by norm_num [MAX_LATITUDE])
    (by norm_num [MIN_LONGITUDE]) (by norm_num [MAX_LONGITUDE])).1

end TileSystem
